import Mathlib

/-!
Verification of `src/coprocessor/statistics/analyze.rs` (statistics
collection for ANALYZE requests).

Shallow embedding conventions:
* Encoded column values (`Vec<u8>`) are `List Nat` (`Bytes`); only the
  first-byte sentinel flag, equality and lexicographic order of such byte
  strings are relevant to the verified properties.
* Randomness is passed in explicitly: every `rng.gen_range` draw made by a
  function becomes an extra argument (or a list of draws) of the embedded
  function, so theorems quantify over all possible draws.
* `FmSketch` / `CmSketch` / `Histogram` live in sibling modules outside the
  analyzed file; `analyze.rs` only calls into them.  They are therefore
  embedded as operation traces: the list of calls (with their exact
  arguments, in program order) that `analyze.rs` issues against them.
* `BinaryHeap<Reverse<T>>` (a min-heap on `T`) is embedded as a list kept
  sorted ascending by the Rust `Ord` on `T`; `push` is sorted insertion,
  `pop`/`peek` act on the head (a minimal element), which matches the
  observable heap semantics.
* Machine integers (`u32` run counts, `u64` sizes, `i64` priorities, all
  far below their overflow bounds in every verified statement) are `Nat`
  or `Int`; `f64` sample rates and uniform draws in `[0,1)` are `ℚ`
  (the comparisons performed on them are order comparisons, which agree
  with the rational order on all representable values).
-/

namespace Analyze

/-- Encoded column value bytes (`Vec<u8>` in the source). -/
abbrev Bytes := List Nat

/-- Datum sentinel flag for NULL (first byte of an encoded null value),
`NIL_FLAG` in the `tidb_query_datatype` codec. -/
def NIL_FLAG : Nat := 0

/-- Lexicographic order on byte strings: the `Ord` instance of `Vec<u8>`. -/
def bytesLt : Bytes → Bytes → Bool
  | [], [] => false
  | [], _ :: _ => true
  | _ :: _, [] => false
  | a :: as, b :: bs => if a < b then true else if b < a then false else bytesLt as bs

/-- Order on `(u32, Vec<u8>)` pairs: the derived lexicographic `Ord` of a
Rust tuple, used by the top-n `BinaryHeap<Reverse<(u32, Vec<u8>)>>`. -/
def pairLt (x y : Nat × Bytes) : Bool :=
  if x.1 < y.1 then true else if y.1 < x.1 then false else bytesLt x.2 y.2

/-- Sorted insertion into the min-heap model (ascending by `pairLt`):
`BinaryHeap::push` on `Reverse` pairs. -/
def heapInsert (x : Nat × Bytes) : List (Nat × Bytes) → List (Nat × Bytes)
  | [] => [x]
  | y :: ys => if pairLt x y then x :: y :: ys else y :: heapInsert x ys

/-- State of the running `(count, value)` pointer plus the top-n heap kept
while scanning index entries (`cur_val` and `topn_heap` in the source). -/
structure TopNState where
  heap : List (Nat × Bytes)
  curCount : Nat
  curVal : Bytes
  deriving DecidableEq

/-- `if cur_val.0 > 0 { topn_heap.push(Reverse(cur_val)) }`. -/
def pushIf (s : TopNState) : List (Nat × Bytes) :=
  if 0 < s.curCount then heapInsert (s.curCount, s.curVal) s.heap else s.heap

/-- `if topn_heap.len() > top_n_size { topn_heap.pop() }`: dropping the head
of the sorted list removes a minimal element. -/
def trimK (k : Nat) (h : List (Nat × Bytes)) : List (Nat × Bytes) :=
  if k < h.length then h.tail else h

/-- One stats-version-2 iteration of the run-length/top-n logic of
`handle_index` (and of the common-handle block of `collect_columns_stats`):
either extend the current run or flush it into the heap and start a new
run of length 1. -/
def topNStep (k : Nat) (s : TopNState) (data : Bytes) : TopNState :=
  if s.curVal = data then { s with curCount := s.curCount + 1 }
  else { heap := trimK k (pushIf s), curCount := 1, curVal := data }

/-- End-of-scan flush: push the pending run (if non-empty) and trim. -/
def topNFinish (k : Nat) (s : TopNState) : List (Nat × Bytes) :=
  if 0 < s.curCount then trimK k (heapInsert (s.curCount, s.curVal) s.heap) else s.heap

/-- Operations `analyze.rs` issues against a `CmSketch`. -/
inductive CmOp where
  | insert (v : Bytes)
  | sub (v : Bytes) (c : Nat)
  | pushTopN (v : Bytes) (c : Nat)
  deriving DecidableEq

/-- Whether a `CmSketch` operation touches the exact top-n overlay
(`sub` correction or `push_to_top_n` promotion). -/
def CmOp.isTopNOp : CmOp → Bool
  | .insert _ => false
  | .sub _ _ => true
  | .pushTopN _ _ => true

/-- The `CmSketch` calls of the final phase of `handle_index` /
`collect_columns_stats` at stats version 2: for every surviving heap item,
`c.sub(&item.1, item.0)` then `c.push_to_top_n(item.1, item.0)`.  (The Rust
heap is consumed in unspecified order; the trace fixes the sorted order,
which no verified property depends on.) -/
def cmFinishOps (heap : List (Nat × Bytes)) : List CmOp :=
  heap.flatMap fun p => [CmOp.sub p.2 p.1, CmOp.pushTopN p.2 p.1]

/-- The per-row `CmSketch` inserts of the column loop: after appending each
column's datum to `data`, `cms.insert(&data)` inserts the accumulated
byte string (so each per-column running concatenation is inserted). -/
def cmColumnInserts (acc : Bytes) : List Bytes → List CmOp
  | [] => []
  | c :: cs => CmOp.insert (acc ++ c) :: cmColumnInserts (acc ++ c) cs

/-- Version constants (`ANALYZE_VERSION_V1` / `ANALYZE_VERSION_V2`). -/
def ANALYZE_VERSION_V1 : Int := 1

def ANALYZE_VERSION_V2 : Int := 2

/-- Stats version resolution of `handle_index`: the request's version if
the field is present, otherwise `ANALYZE_VERSION_V1`. -/
def resolveVersion (hasVersion : Bool) (version : Int) : Int :=
  if hasVersion then version else ANALYZE_VERSION_V1

/-- Stats version resolution of `SampleBuilder::new`: taken from the
optional common-handle `AnalyzeIndexReq` (`(has_version, version)`),
defaulting to `ANALYZE_VERSION_V1` when the request or its version field
is absent. -/
def sampleBuilderVersion : Option (Bool × Int) → Int
  | none => ANALYZE_VERSION_V1
  | some (hv, v) => if hv then v else ANALYZE_VERSION_V1

/-- Accumulated effects of the `handle_index` scan loop. -/
structure IdxState where
  histOps : List (Bytes × Bool)
  cmOps : List CmOp
  fmInserts : List Bytes
  topn : TopNState
  deriving DecidableEq

/-- One row of the `handle_index` loop.  The row arrives already split into
its per-column datums (`split_datum` is external codec); `data` is their
concatenation.  `cmsEnabled` is whether `CmSketch::new` returned `Some`. -/
def handleIndexStep (cmsEnabled : Bool) (ver : Int) (k : Nat)
    (s : IdxState) (row : List Bytes) : IdxState :=
  let data := row.flatten
  let cmOps := s.cmOps ++ (if cmsEnabled then cmColumnInserts [] row else [])
  let fmInserts := s.fmInserts ++ [data]
  if ver = ANALYZE_VERSION_V2 then
    { histOps := s.histOps ++ [(data, true)], cmOps := cmOps,
      fmInserts := fmInserts, topn := topNStep k s.topn data }
  else
    { histOps := s.histOps ++ [(data, false)], cmOps := cmOps,
      fmInserts := fmInserts, topn := s.topn }

/-- Result of `handle_index`: the `Histogram::append` trace (value and
exact-repeat flag), the `CmSketch` trace, the `FmSketch` trace and the
final top-n heap. -/
structure IdxOut where
  histOps : List (Bytes × Bool)
  cmOps : List CmOp
  fmInserts : List Bytes
  finalHeap : List (Nat × Bytes)
  deriving DecidableEq

/-- `AnalyzeContext::handle_index` restricted to its statistics effects:
scan the rows (each a list of per-column datums, in ascending key order as
delivered by the range scanner), then at stats version 2 flush the pending
run and promote every surviving heap entry into the sketch's top-n list. -/
def handle_index (cmsEnabled : Bool) (hasVersion : Bool) (version : Int) (k : Nat)
    (rows : List (List Bytes)) : IdxOut :=
  let ver := resolveVersion hasVersion version
  let s := rows.foldl (handleIndexStep cmsEnabled ver k) ⟨[], [], [], ⟨[], 0, []⟩⟩
  if ver = ANALYZE_VERSION_V2 then
    let heap := topNFinish k s.topn
    ⟨s.histOps, s.cmOps ++ (if cmsEnabled then cmFinishOps heap else []), s.fmInserts, heap⟩
  else
    ⟨s.histOps, s.cmOps, s.fmInserts, s.topn.heap⟩

/-- The scanned range as one ascending stream of runs: each `(n, v)` run
contributes `n` consecutive copies of the encoded value `v`.  A stream in
which equal values are contiguous is exactly the join of such runs with
pairwise-distinct values. -/
def joinRuns (runs : List (Nat × Bytes)) : List Bytes :=
  (runs.map fun p => List.replicate p.1 p.2).flatten

/-- Accumulated effects of the common-handle block of
`SampleBuilder::collect_columns_stats`. -/
structure CHState where
  histOps : List (Bytes × Bool)
  cmOps : List CmOp
  fmInserts : List Bytes
  deriving DecidableEq

/-- One row of the common-handle block: the accumulated traces are paired
with the batch-local top-n state. -/
def chStep (cmsEnabled : Bool) (ver : Int) (k : Nat)
    (p : CHState × TopNState) (row : List Bytes) : CHState × TopNState :=
  let data := row.flatten
  let a := { p.1 with
    cmOps := p.1.cmOps ++ (if cmsEnabled then cmColumnInserts [] row else []),
    fmInserts := p.1.fmInserts ++ [data] }
  if ver = ANALYZE_VERSION_V2 then
    ({ a with histOps := a.histOps ++ [(data, true)] }, topNStep k p.2 data)
  else
    ({ a with histOps := a.histOps ++ [(data, false)] }, p.2)

/-- One batch of the common-handle block of `collect_columns_stats`.  As in
the source, `cur_val` and `topn_heap` are initialized afresh for every
batch and the surviving heap entries are promoted into the sketch's top-n
list at the end of every batch (the `while !is_drained` body declares them
locally). -/
def chBatch (cmsEnabled : Bool) (ver : Int) (k : Nat)
    (acc : CHState) (batch : List (List Bytes)) : CHState :=
  let r := batch.foldl (chStep cmsEnabled ver k) (acc, ⟨[], 0, []⟩)
  if ver = ANALYZE_VERSION_V2 then
    { r.1 with cmOps := r.1.cmOps ++ (if cmsEnabled then cmFinishOps (topNFinish k r.2) else []) }
  else r.1

/-- The common-handle statistics of `SampleBuilder::collect_columns_stats`:
the scanned range arrives split into row batches (`next_batch`); each row is
the list of its common-handle column datums.  `ver` is the builder's
resolved `stats_version`, `k` its `top_n_size`. -/
def collect_common_handle (cmsEnabled : Bool) (ver : Int) (k : Nat)
    (batches : List (List (List Bytes))) : CHState :=
  batches.foldl (chBatch cmsEnabled ver k) ⟨[], [], []⟩

/-- `SampleCollector` (per-column reservoir sample): the retained samples,
counters, and the traces of inserts issued to the embedded `FmSketch` and
optional `CmSketch`. -/
structure SampleCollector where
  samples : List Bytes
  null_count : Nat
  count : Nat
  max_sample_size : Nat
  fmInserts : List Bytes
  cmEnabled : Bool
  cmInserts : List Bytes
  total_size : Nat
  deriving DecidableEq

/-- `SampleCollector::new` (fresh counters and sketches). -/
def SampleCollector.new (max_sample_size : Nat) (cmEnabled : Bool) : SampleCollector :=
  ⟨[], 0, 0, max_sample_size, [], cmEnabled, [], 0⟩

/-- `SampleCollector::collect`.  `r1` is the draw `rng.gen_range(0,
self.count)` and `r2` the draw `rng.gen_range(0, self.max_sample_size)`
(passed in explicitly; the source draws them lazily only on the branches
that use them).  A null first byte only bumps `null_count`; otherwise the
value feeds the counters and sketches and then classical reservoir
sampling decides retention. -/
def SampleCollector.collect (s : SampleCollector) (r1 r2 : Nat) (data : Bytes) :
    SampleCollector :=
  if data.headI = NIL_FLAG then { s with null_count := s.null_count + 1 }
  else
    let s := { s with
      count := s.count + 1,
      fmInserts := s.fmInserts ++ [data],
      cmInserts := s.cmInserts ++ (if s.cmEnabled then [data] else []),
      total_size := s.total_size + (data.length - 1) }
    if s.samples.length < s.max_sample_size then
      { s with samples := s.samples ++ [data] }
    else if r1 < s.max_sample_size then
      { s with samples := s.samples.eraseIdx r2 ++ [data] }
    else s

/-- Feeding a sequence of `((r1, r2), data)` inputs to
`SampleCollector::collect`. -/
def SampleCollector.collectList (s : SampleCollector)
    (inputs : List ((Nat × Nat) × Bytes)) : SampleCollector :=
  inputs.foldl (fun s p => s.collect p.1.1 p.1.2 p.2) s

/-- Per-column recursion of `BaseRowSampleCollector::collect_column` over
the parallel per-column vectors (`null_count`, per-column `FmSketch`
traces, `total_sizes`).  The source's indexed loop touches only index `i`
in iteration `i`; the recursion processes the columns head-first. -/
def collectColsAux : List Bytes → List Bytes → List Bool →
    List Int → List (List Bytes) → List Int →
    List Int × List (List Bytes) × List Int
  | cv :: cvs, ck :: cks, b :: bs, nc :: ncs, fm :: fms, ts :: tss =>
    let r := collectColsAux cvs cks bs ncs fms tss
    if cv.headI = NIL_FLAG then
      ((nc + 1) :: r.1, fm :: r.2.1, ts :: r.2.2)
    else
      (nc :: r.1, (fm ++ [if b then ck else cv]) :: r.2.1,
       (ts + ((cv.length : Int) - 1)) :: r.2.2)
  | _, _, _, nc, fm, ts => (nc, fm, ts)

/-- Shared state of both row-sample collectors (`BaseRowSampleCollector`)
relevant to per-column collection: per-column null counts, `FmSketch`
insert traces and total sizes.  (The row count and the memory-usage
accounting are modeled separately below.) -/
structure BaseRowSampleCollector where
  null_count : List Int
  fm_sketches : List (List Bytes)
  total_sizes : List Int
  deriving DecidableEq

/-- `BaseRowSampleCollector::collect_column`: for each column, a null
first byte bumps that column's null count and nothing else; otherwise the
column's collation sort key (string-like columns) or raw encoding feeds
that column's `FmSketch`, and `total_sizes` grows by the encoded length
minus the flag byte. -/
def BaseRowSampleCollector.collect_column (s : BaseRowSampleCollector)
    (columns_val collation_keys_val : List Bytes) (is_string_like : List Bool) :
    BaseRowSampleCollector :=
  let r := collectColsAux columns_val collation_keys_val is_string_like
    s.null_count s.fm_sketches s.total_sizes
  ⟨r.1, r.2.1, r.2.2⟩

/-- `BernoulliRowSampleCollector` (sample list and configured rate). -/
structure BernoulliRowSampleCollector where
  samples : List (List Bytes)
  sample_rate : ℚ
  deriving DecidableEq

/-- `BernoulliRowSampleCollector::pick_sample`: draw once uniformly in
`[0,1)` and compare against the configured rate.  The source includes the
row when `cur_rng >= self.sample_rate`. -/
def bernoulliPickSample (sample_rate draw : ℚ) : Bool :=
  decide (draw ≥ sample_rate)

/-- `BernoulliRowSampleCollector::push_sample`. -/
def BernoulliRowSampleCollector.push_sample (c : BernoulliRowSampleCollector)
    (data : List Bytes) : BernoulliRowSampleCollector :=
  { c with samples := c.samples ++ [data] }

/-- The scan loop of `RowSampleBuilder::collect_column_stats` restricted to
the sampling decision: for each row (paired with its uniform draw), call
`pick_sample` and, when it returns true, `push_sample`. -/
def bernoulliScan (sample_rate : ℚ) (rows : List (ℚ × List Bytes)) :
    BernoulliRowSampleCollector :=
  rows.foldl
    (fun c r => if bernoulliPickSample c.sample_rate r.1 then c.push_sample r.2 else c)
    ⟨[], sample_rate⟩

/-- Lexicographic order on whole rows (`Vec<Vec<u8>>`), elementwise by
`bytesLt`: the derived `Ord` used to break priority ties in the reservoir
heap. -/
def rowsLt : List Bytes → List Bytes → Bool
  | [], [] => false
  | [], _ :: _ => true
  | _ :: _, [] => false
  | a :: as, b :: bs => if bytesLt a b then true else if bytesLt b a then false else rowsLt as bs

/-- Order on `(i64, Vec<Vec<u8>>)` heap entries of the priority reservoir
(priority first, then row bytes). -/
def resEntryLt (a b : Nat × List Bytes) : Bool :=
  if a.1 < b.1 then true else if b.1 < a.1 then false else rowsLt a.2 b.2

/-- Sorted insertion for the reservoir heap model. -/
def resInsert (x : Nat × List Bytes) : List (Nat × List Bytes) → List (Nat × List Bytes)
  | [] => [x]
  | y :: ys => if resEntryLt x y then x :: y :: ys else y :: resInsert x ys

/-- `ReservoirRowSampleCollector`: min-heap of `(priority, row)` entries
(sorted-list model), capacity, and the `cur_rng` field that `push_sample`
reads for the stored priority. -/
structure ReservoirRowSampleCollector where
  samples : List (Nat × List Bytes)
  max_sample_size : Nat
  cur_rng : Nat
  deriving DecidableEq

/-- `ReservoirRowSampleCollector::new` (`cur_rng` starts at 0). -/
def ReservoirRowSampleCollector.new (max_sample_size : Nat) :
    ReservoirRowSampleCollector :=
  ⟨[], max_sample_size, 0⟩

/-- `ReservoirRowSampleCollector::pick_sample`.  `draw` is the uniform
draw `rng.gen_range(0, i64::MAX)`.  Returns the admission decision and the
updated collector.  Note the source stores `draw` into `self.cur_rng` only
on the eviction branch; under-capacity admissions leave `cur_rng`
untouched.  (The eviction also subtracts the evicted row from the memory
accounting, modeled separately below.) -/
def ReservoirRowSampleCollector.pick_sample (c : ReservoirRowSampleCollector)
    (draw : Nat) : Bool × ReservoirRowSampleCollector :=
  if c.max_sample_size = 0 then (false, c)
  else if c.samples.length < c.max_sample_size then (true, c)
  else
    match c.samples with
    | [] => (false, c)
    | m :: rest =>
      if m.1 < draw then (true, { c with cur_rng := draw, samples := rest })
      else (false, c)

/-- `ReservoirRowSampleCollector::push_sample`: stores the row under the
priority currently held in `self.cur_rng`. -/
def ReservoirRowSampleCollector.push_sample (c : ReservoirRowSampleCollector)
    (data : List Bytes) : ReservoirRowSampleCollector :=
  { c with samples := resInsert (c.cur_rng, data) c.samples }

/-- The `(row, weight)` pairs emitted by
`ReservoirRowSampleCollector::to_proto`: each retained sample is serialized
with its stored priority as the sample's weight. -/
def ReservoirRowSampleCollector.to_proto_weights (c : ReservoirRowSampleCollector) :
    List (List Bytes × Nat) :=
  c.samples.map fun p => (p.2, p.1)

/-- Memory-usage accounting state of `BaseRowSampleCollector` together
with the process-wide `MEMTRACE_ANALYZE` counter: `traceEvents` records the
signed deltas pushed (`TraceEvent::Add d` as `+d`, `TraceEvent::Sub d` as
`-d`), so the counter's cumulative value is `traceEvents.sum`. -/
structure MemState where
  memory_usage : Nat
  reported_memory_usage : Nat
  traceEvents : List Int
  deriving DecidableEq

/-- The initial accounting state of a fresh collector. -/
def memInit : MemState := ⟨0, 0, []⟩

/-- `BaseRowSampleCollector::report_memory_usage`: push the unreported
delta into the shared counter only on finish or when its magnitude
exceeds 1 MiB, then mark the current usage as reported. -/
def report_memory_usage (s : MemState) (on_finish : Bool) : MemState :=
  let diff : Int := (s.memory_usage : Int) - (s.reported_memory_usage : Int)
  if on_finish ∨ diff.natAbs > 1024 * 1024 then
    { s with traceEvents := s.traceEvents ++ [diff],
             reported_memory_usage := s.memory_usage }
  else s

/-- Memory-usage events of a collector's lifetime: usage grows on
`push_sample`, shrinks on eviction, and `report_memory_usage` may run at
any point (the source calls it with `false` after every push). -/
inductive MemOp where
  | addUsage (n : Nat)
  | subUsage (n : Nat)
  | report (on_finish : Bool)

/-- Applying one memory event. -/
def applyMemOp (s : MemState) : MemOp → MemState
  | .addUsage n => { s with memory_usage := s.memory_usage + n }
  | .subUsage n => { s with memory_usage := s.memory_usage - n }
  | .report f => report_memory_usage s f

/-- Applying a sequence of memory events. -/
def applyMemOps (s : MemState) (ops : List MemOp) : MemState :=
  ops.foldl applyMemOp s

/-- The common teardown of `to_proto` (finalization) and of
`Drop for BaseRowSampleCollector` (cancellation): zero the usage, then
report unconditionally. -/
def finalizeMemory (s : MemState) : MemState :=
  report_memory_usage { s with memory_usage := 0 } true

/-- `AnalyzeType` request kinds (`tipb::AnalyzeType`). -/
inductive AnalyzeType where
  | typeIndex
  | typeCommonHandle
  | typeColumn
  | typeMixed
  | typeFullSampling
  | typeSampleIndex
  deriving DecidableEq

/-- The coprocessor `Error` cases distinguished by `handle_request`'s
response shaping: `Error::Other(String)` versus every remaining (hard)
variant, represented by `hard`. -/
inductive CopError where
  | other (msg : String)
  | hard (code : Nat)
  deriving DecidableEq

/-- The wire `Response` fields written by `handle_request`: the serialized
result data and the soft-error payload field (`other_error`). -/
structure Response where
  data : List Nat
  other_error : Option String
  deriving DecidableEq

/-- The message of the unimplemented-kind error. -/
def notImplementedMsg : String := "Analyze of this kind not implemented"

/-- `AnalyzeContext::handle_request`: dispatch on the request kind
(`inner` stands for the result of the matched builder, whose scan is
external), then shape the result: success writes the data; an
`Error::Other` becomes a successful response carrying the message in the
error payload field; any other error propagates and fails the call. -/
def handle_request (tp : AnalyzeType) (inner : Except CopError (List Nat)) :
    Except CopError Response :=
  let ret : Except CopError (List Nat) :=
    match tp with
    | .typeSampleIndex => .error (.other notImplementedMsg)
    | _ => inner
  match ret with
  | .ok data => .ok ⟨data, none⟩
  | .error (.other e) => .ok ⟨[], some e⟩
  | .error e => .error e

/-! ### Heap-model membership lemmas -/

theorem mem_heapInsert {x y : Nat × Bytes} : ∀ {l : List (Nat × Bytes)},
    x ∈ heapInsert y l → x = y ∨ x ∈ l := by
  intro l
  induction l with
  | nil =>
    intro h
    rw [heapInsert] at h
    exact Or.inl (List.mem_singleton.mp h)
  | cons z zs ih =>
    intro h
    rw [heapInsert] at h
    split at h
    · rcases List.mem_cons.mp h with h | h
      · exact Or.inl h
      · exact Or.inr h
    · rcases List.mem_cons.mp h with h | h
      · exact Or.inr (List.mem_cons.mpr (Or.inl h))
      · rcases ih h with h | h
        · exact Or.inl h
        · exact Or.inr (List.mem_cons.mpr (Or.inr h))

theorem mem_trimK {x : Nat × Bytes} {k : Nat} {h : List (Nat × Bytes)}
    (hx : x ∈ trimK k h) : x ∈ h := by
  rw [trimK] at hx
  split at hx
  · exact List.mem_of_mem_tail hx
  · exact hx

theorem mem_pushIf {x : Nat × Bytes} {s : TopNState} (hx : x ∈ pushIf s) :
    (0 < s.curCount ∧ x = (s.curCount, s.curVal)) ∨ x ∈ s.heap := by
  rw [pushIf] at hx
  split at hx
  · next hc =>
    rcases mem_heapInsert hx with h | h
    · exact Or.inl ⟨hc, h⟩
    · exact Or.inr h
  · exact Or.inr hx

theorem mem_topNFinish {x : Nat × Bytes} {k : Nat} {s : TopNState}
    (hx : x ∈ topNFinish k s) :
    (0 < s.curCount ∧ x = (s.curCount, s.curVal)) ∨ x ∈ s.heap := by
  rw [topNFinish] at hx
  split at hx
  · next hc =>
    rcases mem_heapInsert (mem_trimK hx) with h | h
    · exact Or.inl ⟨hc, h⟩
    · exact Or.inr h
  · exact Or.inr hx

/-! ### Run-length fold lemmas -/

theorem joinRuns_cons (q : Nat × Bytes) (rest : List (Nat × Bytes)) :
    joinRuns (q :: rest) = List.replicate q.1 q.2 ++ joinRuns rest := by
  simp [joinRuns]

theorem foldl_topNStep_replicate_same {k : Nat} : ∀ {n : Nat} {s : TopNState} {v : Bytes},
    s.curVal = v →
    (List.replicate n v).foldl (topNStep k) s = { s with curCount := s.curCount + n } := by
  intro n
  induction n with
  | zero => intro s v _; simp
  | succ m ih =>
    intro s v hv
    rw [List.replicate_succ, List.foldl_cons]
    have hstep : topNStep k s v = { s with curCount := s.curCount + 1 } := by
      rw [topNStep, if_pos hv]
    rw [hstep, ih (by simpa using hv)]
    have harith : s.curCount + 1 + m = s.curCount + (m + 1) := by omega
    simp [harith]

theorem foldl_topNStep_replicate_ne {k : Nat} {s : TopNState} {v : Bytes} {n : Nat}
    (hv : ¬(s.curVal = v)) (hn : 0 < n) :
    (List.replicate n v).foldl (topNStep k) s = ⟨trimK k (pushIf s), n, v⟩ := by
  cases n with
  | zero => omega
  | succ m =>
    rw [List.replicate_succ, List.foldl_cons]
    have hstep : topNStep k s v = ⟨trimK k (pushIf s), 1, v⟩ := by
      rw [topNStep, if_neg hv]
    rw [hstep, foldl_topNStep_replicate_same rfl]
    have harith : 1 + m = m + 1 := by omega
    simp [harith]

/-- Invariant of the stats-version-2 run-length scan: starting from a state
whose heap entries and pending run (if any) already belong to `full`, after
consuming the joined remaining runs (positive lengths, pairwise-distinct
values, not clashing with a pending run) every entry of the flushed final
heap belongs to `full`. -/
theorem topn_runs_mem (full : List (Nat × Bytes)) (k : Nat) :
    ∀ (rs : List (Nat × Bytes)) (s : TopNState),
    (∀ p ∈ rs, p ∈ full) →
    (∀ p ∈ rs, 0 < p.1) →
    ((rs.map Prod.snd).Pairwise fun a b => a ≠ b) →
    (∀ p ∈ s.heap, p ∈ full) →
    (0 < s.curCount → (s.curCount, s.curVal) ∈ full ∧ s.curVal ∉ rs.map Prod.snd) →
    ∀ p ∈ topNFinish k ((joinRuns rs).foldl (topNStep k) s), p ∈ full := by
  intro rs
  induction rs with
  | nil =>
    intro s _ _ _ hheap hcur p hp
    rw [joinRuns] at hp
    simp only [List.map_nil, List.flatten_nil, List.foldl_nil] at hp
    rcases mem_topNFinish hp with ⟨hc, he⟩ | h
    · exact he ▸ (hcur hc).1
    · exact hheap p h
  | cons q rest ih =>
    intro s hsub hpos hnd hheap hcur p hp
    rw [joinRuns_cons, List.foldl_append] at hp
    have hq : q ∈ full := hsub q (List.mem_cons_self q rest)
    have hqpos : 0 < q.1 := hpos q (List.mem_cons_self q rest)
    have hndq : q.2 ∉ rest.map Prod.snd := by
      intro hmem
      rw [List.map_cons, List.pairwise_cons] at hnd
      exact hnd.1 q.2 hmem rfl
    have hndrest : (rest.map Prod.snd).Pairwise fun a b => a ≠ b := by
      rw [List.map_cons, List.pairwise_cons] at hnd
      exact hnd.2
    by_cases hv : s.curVal = q.2
    · have hc0 : s.curCount = 0 := by
        by_contra hc
        have := (hcur (Nat.pos_of_ne_zero hc)).2
        rw [List.map_cons] at this
        exact this (hv ▸ List.mem_cons_self _ _)
      rw [foldl_topNStep_replicate_same hv] at hp
      refine ih { s with curCount := s.curCount + q.1 }
        (fun p hp => hsub p (List.mem_cons_of_mem q hp))
        (fun p hp => hpos p (List.mem_cons_of_mem q hp))
        hndrest hheap ?_ p hp
      intro _
      constructor
      · rw [hc0, Nat.zero_add, hv]
        simpa using hq
      · rw [hv]
        exact hndq
    · rw [foldl_topNStep_replicate_ne hv hqpos] at hp
      refine ih ⟨trimK k (pushIf s), q.1, q.2⟩
        (fun p hp => hsub p (List.mem_cons_of_mem q hp))
        (fun p hp => hpos p (List.mem_cons_of_mem q hp))
        hndrest ?_ ?_ p hp
      · intro x hx
        rcases mem_pushIf (mem_trimK hx) with ⟨hc, he⟩ | h
        · exact he ▸ (hcur hc).1
        · exact hheap x h
      · intro _
        constructor
        · simpa using hq
        · exact hndq

/-! ### Exact-frequency lemmas for contiguous-run streams -/

theorem count_joinRuns_eq_zero {v : Bytes} : ∀ {rs : List (Nat × Bytes)},
    v ∉ rs.map Prod.snd → (joinRuns rs).count v = 0 := by
  intro rs
  induction rs with
  | nil => intro _; simp [joinRuns]
  | cons q rest ih =>
    intro h
    rw [List.map_cons] at h
    rw [joinRuns_cons, List.count_append, List.count_replicate]
    simp only [beq_iff_eq]
    have h1 : ¬(q.2 = v) := fun he => h (List.mem_cons.mpr (Or.inl he.symm))
    rw [if_neg h1, Nat.zero_add]
    exact ih fun hm => h (List.mem_cons.mpr (Or.inr hm))

theorem count_joinRuns {rs : List (Nat × Bytes)}
    (hnd : (rs.map Prod.snd).Pairwise fun a b => a ≠ b) :
    ∀ {p : Nat × Bytes}, p ∈ rs → (joinRuns rs).count p.2 = p.1 := by
  induction rs with
  | nil => intro p h; simp at h
  | cons q rest ih =>
    intro p hp
    rw [List.map_cons, List.pairwise_cons] at hnd
    rw [joinRuns_cons, List.count_append, List.count_replicate]
    simp only [beq_iff_eq]
    rcases List.mem_cons.mp hp with h | h
    · subst h
      rw [if_pos rfl, count_joinRuns_eq_zero (fun hm => hnd.1 p.2 hm rfl), Nat.add_zero]
    · have hne : ¬(q.2 = p.2) := by
        intro he
        exact hnd.1 p.2 (List.mem_map.mpr ⟨p, h, rfl⟩) he
      rw [if_neg hne, Nat.zero_add]
      exact ih hnd.2 h

/-! ### `handle_index` projections -/

theorem idx_foldl_topn (c : Bool) (k : Nat) :
    ∀ (rows : List (List Bytes)) (s : IdxState),
    (rows.foldl (handleIndexStep c ANALYZE_VERSION_V2 k) s).topn =
      (rows.map List.flatten).foldl (topNStep k) s.topn := by
  intro rows
  induction rows with
  | nil => intro s; simp
  | cons r rest ih =>
    intro s
    rw [List.foldl_cons, List.map_cons, List.foldl_cons, ih]
    congr 1

theorem idx_foldl_cmOps (c : Bool) (ver : Int) (k : Nat) :
    ∀ (rows : List (List Bytes)) (s : IdxState) (op : CmOp),
    op ∈ (rows.foldl (handleIndexStep c ver k) s).cmOps →
    op ∈ s.cmOps ∨ op.isTopNOp = false := by
  intro rows
  induction rows with
  | nil => intro s op h; exact Or.inl h
  | cons r rest ih =>
    intro s op h
    have hins : ∀ (acc : Bytes) (cols : List Bytes),
        op ∈ cmColumnInserts acc cols → op.isTopNOp = false := by
      intro acc cols
      induction cols generalizing acc with
      | nil => intro h; simp [cmColumnInserts] at h
      | cons d ds ihc =>
        intro h
        rw [cmColumnInserts] at h
        rcases List.mem_cons.mp h with h | h
        · rw [h]; rfl
        · exact ihc _ h
    rcases ih (handleIndexStep c ver k s r) op h with h1 | h1
    · have hstep : (handleIndexStep c ver k s r).cmOps =
          s.cmOps ++ (if c then cmColumnInserts [] r else []) := by
        rw [handleIndexStep]
        split <;> rfl
      rw [hstep] at h1
      rcases List.mem_append.mp h1 with h2 | h2
      · exact Or.inl h2
      · split at h2
        · exact Or.inr (hins [] r h2)
        · simp at h2
    · exact Or.inr h1

theorem idx_foldl_histOps (c : Bool) (ver : Int) (k : Nat) (hver : ver ≠ ANALYZE_VERSION_V2) :
    ∀ (rows : List (List Bytes)) (s : IdxState) (p : Bytes × Bool),
    p ∈ (rows.foldl (handleIndexStep c ver k) s).histOps →
    p ∈ s.histOps ∨ p.2 = false := by
  intro rows
  induction rows with
  | nil => intro s p h; exact Or.inl h
  | cons r rest ih =>
    intro s p h
    rcases ih (handleIndexStep c ver k s r) p h with h1 | h1
    · have hstep : (handleIndexStep c ver k s r).histOps =
          s.histOps ++ [(r.flatten, false)] := by
        rw [handleIndexStep, if_neg hver]
      rw [hstep] at h1
      rcases List.mem_append.mp h1 with h2 | h2
      · exact Or.inl h2
      · rw [List.mem_singleton.mp h2]
        exact Or.inr rfl
    · exact Or.inr h1

theorem handle_index_v2_eq (c : Bool) (k : Nat) (rows : List (List Bytes)) :
    handle_index c true ANALYZE_VERSION_V2 k rows =
      ⟨(rows.foldl (handleIndexStep c ANALYZE_VERSION_V2 k) ⟨[], [], [], ⟨[], 0, []⟩⟩).histOps,
       (rows.foldl (handleIndexStep c ANALYZE_VERSION_V2 k) ⟨[], [], [], ⟨[], 0, []⟩⟩).cmOps ++
         (if c then cmFinishOps (topNFinish k
           ((rows.map List.flatten).foldl (topNStep k) ⟨[], 0, []⟩)) else []),
       (rows.foldl (handleIndexStep c ANALYZE_VERSION_V2 k) ⟨[], [], [], ⟨[], 0, []⟩⟩).fmInserts,
       topNFinish k ((rows.map List.flatten).foldl (topNStep k) ⟨[], 0, []⟩)⟩ := by
  rw [handle_index]
  simp only [resolveVersion, if_pos rfl, ite_true, idx_foldl_topn]

theorem mem_cmFinishOps_sub {p : Nat × Bytes} {heap : List (Nat × Bytes)}
    (hp : p ∈ heap) : CmOp.sub p.2 p.1 ∈ cmFinishOps heap :=
  List.mem_flatMap.mpr ⟨p, hp, by simp⟩

theorem mem_cmFinishOps_pushTopN {p : Nat × Bytes} {heap : List (Nat × Bytes)}
    (hp : p ∈ heap) : CmOp.pushTopN p.2 p.1 ∈ cmFinishOps heap :=
  List.mem_flatMap.mpr ⟨p, hp, by simp⟩

/-! ### Claim C3 -/

/-- Claim C3: in `handle_index` with exact-repeat mode (stats version 2),
for an ascending input stream in which equal values are contiguous (i.e.
the stream is the concatenation of runs with positive lengths and
pairwise-distinct values), every promoted heavy hitter's recorded count
equals that value's true total frequency in the stream, and the count-min
sketch is corrected by a `sub` of exactly that count alongside the
`push_to_top_n` promotion; the example stream `[1,1,1,2,2,5]` with
`top_n_size = 2` yields heavy hitters `{1 ↦ 3, 2 ↦ 2}`. -/
theorem handle_index_exact_heavy_hitters
    (runs : List (Nat × Bytes)) (k : Nat) (rows : List (List Bytes))
    (hjoin : rows.map List.flatten = joinRuns runs)
    (hpos : ∀ p ∈ runs, 0 < p.1)
    (hnd : (runs.map Prod.snd).Pairwise fun a b => a ≠ b) :
    (∀ p ∈ (handle_index true true ANALYZE_VERSION_V2 k rows).finalHeap,
        p.1 = (rows.map List.flatten).count p.2 ∧
        CmOp.sub p.2 p.1 ∈ (handle_index true true ANALYZE_VERSION_V2 k rows).cmOps ∧
        CmOp.pushTopN p.2 p.1 ∈ (handle_index true true ANALYZE_VERSION_V2 k rows).cmOps) ∧
    (handle_index true true ANALYZE_VERSION_V2 2
      [[[1]], [[1]], [[1]], [[2]], [[2]], [[5]]]).finalHeap = [(2, [2]), (3, [1])] := by
  constructor
  · have hfh : (handle_index true true ANALYZE_VERSION_V2 k rows).finalHeap =
        topNFinish k ((rows.map List.flatten).foldl (topNStep k) ⟨[], 0, []⟩) := by
      rw [handle_index_v2_eq]
    have hcm : ∀ op ∈ cmFinishOps ((handle_index true true ANALYZE_VERSION_V2 k rows).finalHeap),
        op ∈ (handle_index true true ANALYZE_VERSION_V2 k rows).cmOps := by
      intro op hop
      rw [handle_index_v2_eq]
      rw [hfh] at hop
      simp only [if_pos rfl, ite_true]
      exact List.mem_append_right _ hop
    intro p hp
    have hp0 : p ∈ topNFinish k ((joinRuns runs).foldl (topNStep k) ⟨[], 0, []⟩) := by
      rw [hfh, hjoin] at hp
      exact hp
    have hmem : p ∈ runs :=
      topn_runs_mem runs k runs ⟨[], 0, []⟩ (fun _ h => h) hpos hnd
        (fun x hx => absurd hx (List.not_mem_nil x))
        (fun h => absurd h (by decide)) p hp0
    refine ⟨?_, hcm _ (mem_cmFinishOps_sub hp), hcm _ (mem_cmFinishOps_pushTopN hp)⟩
    rw [hjoin]
    exact (count_joinRuns hnd hmem).symm
  · decide

/-- Witness for C3 at the spec's example: the stream `[1,1,1,2,2,5]` is the
join of the runs `(3,[1]), (2,[2]), (1,[5])`, and the theorem's conclusion
holds for it. -/
theorem handle_index_exact_heavy_hitters_witness :
    (([[[1]], [[1]], [[1]], [[2]], [[2]], [[5]]] : List (List Bytes)).map List.flatten =
        joinRuns [(3, [1]), (2, [2]), (1, [5])]) ∧
    ((∀ p ∈ (handle_index true true ANALYZE_VERSION_V2 2
        [[[1]], [[1]], [[1]], [[2]], [[2]], [[5]]]).finalHeap,
        p.1 = (([[[1]], [[1]], [[1]], [[2]], [[2]], [[5]]] : List (List Bytes)).map
          List.flatten).count p.2 ∧
        CmOp.sub p.2 p.1 ∈ (handle_index true true ANALYZE_VERSION_V2 2
          [[[1]], [[1]], [[1]], [[2]], [[2]], [[5]]]).cmOps ∧
        CmOp.pushTopN p.2 p.1 ∈ (handle_index true true ANALYZE_VERSION_V2 2
          [[[1]], [[1]], [[1]], [[2]], [[2]], [[5]]]).cmOps) ∧
      (handle_index true true ANALYZE_VERSION_V2 2
        [[[1]], [[1]], [[1]], [[2]], [[2]], [[5]]]).finalHeap = [(2, [2]), (3, [1])]) :=
  ⟨by decide,
   handle_index_exact_heavy_hitters [(3, [1]), (2, [2]), (1, [5])] 2
     [[[1]], [[1]], [[1]], [[2]], [[2]], [[5]]] (by decide) (by decide) (by decide)⟩

/-! ### Version gating (claim C10) -/

theorem cmColumnInserts_not_topn : ∀ (acc : Bytes) (cols : List Bytes) (op : CmOp),
    op ∈ cmColumnInserts acc cols → op.isTopNOp = false := by
  intro acc cols
  induction cols generalizing acc with
  | nil => intro op h; simp [cmColumnInserts] at h
  | cons d ds ih =>
    intro op h
    rw [cmColumnInserts] at h
    rcases List.mem_cons.mp h with h | h
    · rw [h]; rfl
    · exact ih _ op h

theorem chStep_fst_cmOps (c : Bool) (ver : Int) (k : Nat)
    (p : CHState × TopNState) (row : List Bytes) :
    (chStep c ver k p row).1.cmOps =
      p.1.cmOps ++ (if c then cmColumnInserts [] row else []) := by
  rw [chStep]
  split <;> rfl

theorem chStep_fst_histOps_ne_v2 (c : Bool) (ver : Int) (k : Nat)
    (hver : ver ≠ ANALYZE_VERSION_V2) (p : CHState × TopNState) (row : List Bytes) :
    (chStep c ver k p row).1.histOps = p.1.histOps ++ [(row.flatten, false)] := by
  rw [chStep, if_neg hver]

theorem ch_foldl_cmOps (c : Bool) (ver : Int) (k : Nat) :
    ∀ (rows : List (List Bytes)) (p : CHState × TopNState) (op : CmOp),
    op ∈ ((rows.foldl (chStep c ver k) p).1).cmOps →
    op ∈ p.1.cmOps ∨ op.isTopNOp = false := by
  intro rows
  induction rows with
  | nil => intro p op h; exact Or.inl h
  | cons r rest ih =>
    intro p op h
    rcases ih (chStep c ver k p r) op h with h1 | h1
    · rw [chStep_fst_cmOps] at h1
      rcases List.mem_append.mp h1 with h2 | h2
      · exact Or.inl h2
      · split at h2
        · exact Or.inr (cmColumnInserts_not_topn [] r op h2)
        · simp at h2
    · exact Or.inr h1

theorem ch_foldl_histOps (c : Bool) (ver : Int) (k : Nat)
    (hver : ver ≠ ANALYZE_VERSION_V2) :
    ∀ (rows : List (List Bytes)) (p : CHState × TopNState) (x : Bytes × Bool),
    x ∈ ((rows.foldl (chStep c ver k) p).1).histOps →
    x ∈ p.1.histOps ∨ x.2 = false := by
  intro rows
  induction rows with
  | nil => intro p x h; exact Or.inl h
  | cons r rest ih =>
    intro p x h
    rcases ih (chStep c ver k p r) x h with h1 | h1
    · rw [chStep_fst_histOps_ne_v2 c ver k hver] at h1
      rcases List.mem_append.mp h1 with h2 | h2
      · exact Or.inl h2
      · rw [List.mem_singleton.mp h2]
        exact Or.inr rfl
    · exact Or.inr h1

theorem chBatch_ne_v2 (c : Bool) (ver : Int) (k : Nat)
    (hver : ver ≠ ANALYZE_VERSION_V2) (acc : CHState) (batch : List (List Bytes)) :
    chBatch c ver k acc batch = (batch.foldl (chStep c ver k) (acc, ⟨[], 0, []⟩)).1 := by
  simp only [chBatch]
  rw [if_neg hver]

theorem collect_ch_cmOps (c : Bool) (ver : Int) (k : Nat)
    (hver : ver ≠ ANALYZE_VERSION_V2) :
    ∀ (batches : List (List (List Bytes))) (acc : CHState) (op : CmOp),
    op ∈ (batches.foldl (chBatch c ver k) acc).cmOps →
    op ∈ acc.cmOps ∨ op.isTopNOp = false := by
  intro batches
  induction batches with
  | nil => intro acc op h; exact Or.inl h
  | cons b rest ih =>
    intro acc op h
    rcases ih (chBatch c ver k acc b) op h with h1 | h1
    · rw [chBatch_ne_v2 c ver k hver] at h1
      rcases ch_foldl_cmOps c ver k b (acc, ⟨[], 0, []⟩) op h1 with h2 | h2
      · exact Or.inl h2
      · exact Or.inr h2
    · exact Or.inr h1

theorem collect_ch_histOps (c : Bool) (ver : Int) (k : Nat)
    (hver : ver ≠ ANALYZE_VERSION_V2) :
    ∀ (batches : List (List (List Bytes))) (acc : CHState) (x : Bytes × Bool),
    x ∈ (batches.foldl (chBatch c ver k) acc).histOps →
    x ∈ acc.histOps ∨ x.2 = false := by
  intro batches
  induction batches with
  | nil => intro acc x h; exact Or.inl h
  | cons b rest ih =>
    intro acc x h
    rcases ih (chBatch c ver k acc b) x h with h1 | h1
    · rw [chBatch_ne_v2 c ver k hver] at h1
      rcases ch_foldl_histOps c ver k hver b (acc, ⟨[], 0, []⟩) x h1 with h2 | h2
      · exact Or.inl h2
      · exact Or.inr h2
    · exact Or.inr h1

theorem handle_index_ne_v2_eq (c : Bool) (hv : Bool) (v : Int) (k : Nat)
    (rows : List (List Bytes)) (hne : resolveVersion hv v ≠ ANALYZE_VERSION_V2) :
    handle_index c hv v k rows =
      ⟨(rows.foldl (handleIndexStep c (resolveVersion hv v) k) ⟨[], [], [], ⟨[], 0, []⟩⟩).histOps,
       (rows.foldl (handleIndexStep c (resolveVersion hv v) k) ⟨[], [], [], ⟨[], 0, []⟩⟩).cmOps,
       (rows.foldl (handleIndexStep c (resolveVersion hv v) k) ⟨[], [], [], ⟨[], 0, []⟩⟩).fmInserts,
       (rows.foldl (handleIndexStep c (resolveVersion hv v) k) ⟨[], [], [], ⟨[], 0, []⟩⟩).topn.heap⟩ := by
  simp only [handle_index]
  rw [if_neg hne]

/-- Claim C10: exact-repeat histogram mode and heavy-hitter extraction run
only when the resolved statistics version is 2 (defaulting to version 1
when the version field is absent, in both `handle_index` and
`SampleBuilder::new`); under any other version every `Histogram::append`
carries exact-repeat flag false and the count-min sketch never receives a
`sub` or `push_to_top_n`, in both the index path and the common-handle
path. -/
theorem stats_version_gating
    (w v : Int) (c hv : Bool) (k : Nat)
    (rows : List (List Bytes)) (chReq : Option (Bool × Int))
    (batches : List (List (List Bytes)))
    (hne : resolveVersion hv v ≠ ANALYZE_VERSION_V2)
    (hne2 : sampleBuilderVersion chReq ≠ ANALYZE_VERSION_V2) :
    resolveVersion false w = ANALYZE_VERSION_V1 ∧
    sampleBuilderVersion none = ANALYZE_VERSION_V1 ∧
    sampleBuilderVersion (some (false, w)) = ANALYZE_VERSION_V1 ∧
    (∀ p ∈ (handle_index c hv v k rows).histOps, p.2 = false) ∧
    (∀ op ∈ (handle_index c hv v k rows).cmOps, op.isTopNOp = false) ∧
    (∀ p ∈ (collect_common_handle c (sampleBuilderVersion chReq) k batches).histOps,
      p.2 = false) ∧
    (∀ op ∈ (collect_common_handle c (sampleBuilderVersion chReq) k batches).cmOps,
      op.isTopNOp = false) := by
  refine ⟨rfl, rfl, rfl, ?_, ?_, ?_, ?_⟩
  · intro p hp
    rw [handle_index_ne_v2_eq c hv v k rows hne] at hp
    rcases idx_foldl_histOps c (resolveVersion hv v) k hne rows _ p hp with h | h
    · exact absurd h (List.not_mem_nil p)
    · exact h
  · intro op hop
    rw [handle_index_ne_v2_eq c hv v k rows hne] at hop
    rcases idx_foldl_cmOps c (resolveVersion hv v) k rows _ op hop with h | h
    · exact absurd h (List.not_mem_nil op)
    · exact h
  · intro p hp
    rcases collect_ch_histOps c _ k hne2 batches ⟨[], [], []⟩ p hp with h | h
    · exact absurd h (List.not_mem_nil p)
    · exact h
  · intro op hop
    rcases collect_ch_cmOps c _ k hne2 batches ⟨[], [], []⟩ op hop with h | h
    · exact absurd h (List.not_mem_nil op)
    · exact h

/-- Witness for C10 at version 1 (explicitly present) on one-row inputs. -/
theorem stats_version_gating_witness :
    (resolveVersion true 1 ≠ ANALYZE_VERSION_V2) ∧
    (sampleBuilderVersion (some (true, 1)) ≠ ANALYZE_VERSION_V2) ∧
    (resolveVersion false 0 = ANALYZE_VERSION_V1 ∧
     sampleBuilderVersion none = ANALYZE_VERSION_V1 ∧
     sampleBuilderVersion (some (false, 0)) = ANALYZE_VERSION_V1 ∧
     (∀ p ∈ (handle_index true true 1 2 [[[1]]]).histOps, p.2 = false) ∧
     (∀ op ∈ (handle_index true true 1 2 [[[1]]]).cmOps, op.isTopNOp = false) ∧
     (∀ p ∈ (collect_common_handle true (sampleBuilderVersion (some (true, 1))) 2
        [[[[1]]]]).histOps, p.2 = false) ∧
     (∀ op ∈ (collect_common_handle true (sampleBuilderVersion (some (true, 1))) 2
        [[[[1]]]]).cmOps, op.isTopNOp = false)) :=
  ⟨by decide, by decide,
   stats_version_gating 0 1 true true 2 [[[1]]] (some (true, 1)) [[[[1]]]]
     (by decide) (by decide)⟩

/-! ### Claim C2 -/

/-- Claim C2 (refuted): the common-handle heavy-hitter extraction of
`collect_columns_stats` resets its run pointer and top-n heap for every
row batch and flushes the heap into the sketch's top-n list per batch.
With the run `[1],[1]` split across two one-row batches at stats version
2 and `top_n_size = 2`, the sketch receives two promotions of value `[1]`
with partial count 1 each, although the value's true total occurrence
count over the entire scanned range is 2 — the count the dedicated index
path (`handle_index`) reports on the same rows in a single scan. -/
theorem collect_common_handle_batch_split_partial_counts :
    (collect_common_handle true ANALYZE_VERSION_V2 2 [[[[1]]], [[[1]]]]).cmOps =
      [CmOp.insert [1], CmOp.sub [1] 1, CmOp.pushTopN [1] 1,
       CmOp.insert [1], CmOp.sub [1] 1, CmOp.pushTopN [1] 1] ∧
    (([[[[1]]], [[[1]]]] : List (List (List Bytes))).flatten.map List.flatten).count [1] = 2 ∧
    (handle_index true true ANALYZE_VERSION_V2 2 [[[1]], [[1]]]).cmOps =
      [CmOp.insert [1], CmOp.insert [1], CmOp.sub [1] 2, CmOp.pushTopN [1] 2] ∧
    (1 : Nat) ≠ 2 := by
  refine ⟨by decide, by decide, by decide, by decide⟩

/-! ### `SampleCollector` reservoir lemmas (claims C4/C5) -/

theorem collect_max_const (s : SampleCollector) (r1 r2 : Nat) (data : Bytes) :
    (s.collect r1 r2 data).max_sample_size = s.max_sample_size := by
  simp only [SampleCollector.collect]
  split_ifs <;> rfl

theorem collect_samples_push {s : SampleCollector} {r1 r2 : Nat} {data : Bytes}
    (hnull : ¬(data.headI = NIL_FLAG)) (hlen : s.samples.length < s.max_sample_size) :
    (s.collect r1 r2 data).samples = s.samples ++ [data] := by
  simp only [SampleCollector.collect, if_neg hnull]
  rw [if_pos hlen]

theorem collect_samples_full {s : SampleCollector} {r1 r2 : Nat} {data : Bytes}
    (hnull : ¬(data.headI = NIL_FLAG)) (hlen : ¬(s.samples.length < s.max_sample_size))
    (hr2 : r2 < s.max_sample_size ∨ s.max_sample_size = 0) :
    (s.collect r1 r2 data).samples.length = s.samples.length := by
  simp only [SampleCollector.collect, if_neg hnull]
  rw [if_neg hlen]
  split
  · next hr1 =>
    have hr2' : r2 < s.samples.length := by omega
    simp [List.length_eraseIdx, hr2']
    omega
  · rfl

theorem collectList_all : ∀ (inputs : List ((Nat × Nat) × Bytes)) (s : SampleCollector),
    (∀ p ∈ inputs, ¬(p.2.headI = NIL_FLAG)) →
    s.samples.length + inputs.length ≤ s.max_sample_size →
    (s.collectList inputs).samples = s.samples ++ inputs.map Prod.snd := by
  intro inputs
  induction inputs with
  | nil => intro s _ _; simp [SampleCollector.collectList]
  | cons q rest ih =>
    intro s hnn hlen
    have hq : ¬(q.2.headI = NIL_FLAG) := hnn q (List.mem_cons_self q rest)
    have hlt : s.samples.length < s.max_sample_size := by
      simp only [List.length_cons] at hlen
      omega
    rw [SampleCollector.collectList, List.foldl_cons, ← SampleCollector.collectList,
      ih (s.collect q.1.1 q.1.2 q.2) (fun p hp => hnn p (List.mem_cons_of_mem q hp))
        (by
          rw [collect_max_const, collect_samples_push hq hlt]
          simp only [List.length_append, List.length_cons, List.length_nil] at hlen ⊢
          omega),
      collect_samples_push hq hlt]
    simp

theorem collectList_length : ∀ (inputs : List ((Nat × Nat) × Bytes)) (s : SampleCollector),
    (∀ p ∈ inputs, ¬(p.2.headI = NIL_FLAG)) →
    (∀ p ∈ inputs, p.1.2 < s.max_sample_size ∨ s.max_sample_size = 0) →
    s.samples.length ≤ s.max_sample_size →
    (s.collectList inputs).samples.length =
      min (s.samples.length + inputs.length) s.max_sample_size := by
  intro inputs
  induction inputs with
  | nil =>
    intro s _ _ hle
    simp [SampleCollector.collectList]
    omega
  | cons q rest ih =>
    intro s hnn hr2 hle
    have hq : ¬(q.2.headI = NIL_FLAG) := hnn q (List.mem_cons_self q rest)
    have hrest : ∀ p ∈ rest, ¬(p.2.headI = NIL_FLAG) :=
      fun p hp => hnn p (List.mem_cons_of_mem q hp)
    rw [SampleCollector.collectList, List.foldl_cons, ← SampleCollector.collectList]
    by_cases hlt : s.samples.length < s.max_sample_size
    · rw [ih (s.collect q.1.1 q.1.2 q.2) hrest
        (by
          intro p hp
          rw [collect_max_const]
          exact hr2 p (List.mem_cons_of_mem q hp))
        (by
          rw [collect_max_const, collect_samples_push hq hlt]
          simp only [List.length_append, List.length_cons, List.length_nil]
          omega),
        collect_max_const, collect_samples_push hq hlt]
      simp only [List.length_append, List.length_cons, List.length_nil]
      omega
    · have hq2 : q.1.2 < s.max_sample_size ∨ s.max_sample_size = 0 :=
        hr2 q (List.mem_cons_self q rest)
      have hfull := @collect_samples_full s q.1.1 q.1.2 q.2 hq hlt hq2
      rw [ih (s.collect q.1.1 q.1.2 q.2) hrest
        (by
          intro p hp
          rw [collect_max_const]
          exact hr2 p (List.mem_cons_of_mem q hp))
        (by rw [collect_max_const, hfull]; omega),
        collect_max_const, hfull]
      simp only [List.length_cons]
      omega

/-- Claim C4: feeding a sequence of non-null encoded values to
`SampleCollector::collect` retains the whole input (in order) when the
sequence length is at most `max_sample_size`, and retains exactly
`max_sample_size` samples when the sequence is longer.  The eviction draw
of each input is in range (`r2 < max_sample_size`) whenever the capacity is
positive, as drawn by the source. -/
theorem sample_collector_reservoir_sizes
    (maxSize : Nat) (cmE : Bool) (inputs : List ((Nat × Nat) × Bytes))
    (hnn : ∀ p ∈ inputs, p.2 ≠ [] ∧ ¬(p.2.headI = NIL_FLAG))
    (hr2 : ∀ p ∈ inputs, p.1.2 < maxSize ∨ maxSize = 0) :
    (inputs.length ≤ maxSize →
      ((SampleCollector.new maxSize cmE).collectList inputs).samples = inputs.map Prod.snd) ∧
    (maxSize < inputs.length →
      ((SampleCollector.new maxSize cmE).collectList inputs).samples.length = maxSize) := by
  constructor
  · intro hle
    have := collectList_all inputs (SampleCollector.new maxSize cmE)
      (fun p hp => (hnn p hp).2)
      (by simpa [SampleCollector.new] using hle)
    simpa [SampleCollector.new] using this
  · intro hgt
    have := collectList_length inputs (SampleCollector.new maxSize cmE)
      (fun p hp => (hnn p hp).2)
      (by simpa [SampleCollector.new] using hr2)
      (by simp [SampleCollector.new])
    rw [this]
    simp [SampleCollector.new]
    omega

/-- Witness for C4: capacity 2, three non-null inputs with in-range draws;
the retained sample count is exactly 2 (and the first conjunct holds
vacuously at this input). -/
theorem sample_collector_reservoir_sizes_witness :
    ((∀ p ∈ ([((0, 0), [3, 1]), ((1, 0), [3, 2]), ((1, 1), [3, 3])] :
        List ((Nat × Nat) × Bytes)), p.2 ≠ [] ∧ ¬(p.2.headI = NIL_FLAG)) ∧
     (∀ p ∈ ([((0, 0), [3, 1]), ((1, 0), [3, 2]), ((1, 1), [3, 3])] :
        List ((Nat × Nat) × Bytes)), p.1.2 < 2 ∨ 2 = 0)) ∧
    (([((0, 0), [3, 1]), ((1, 0), [3, 2]), ((1, 1), [3, 3])] :
        List ((Nat × Nat) × Bytes)).length ≤ 2 →
      ((SampleCollector.new 2 true).collectList
        [((0, 0), [3, 1]), ((1, 0), [3, 2]), ((1, 1), [3, 3])]).samples =
        ([((0, 0), [3, 1]), ((1, 0), [3, 2]), ((1, 1), [3, 3])] :
          List ((Nat × Nat) × Bytes)).map Prod.snd) ∧
    (2 < ([((0, 0), [3, 1]), ((1, 0), [3, 2]), ((1, 1), [3, 3])] :
        List ((Nat × Nat) × Bytes)).length →
      ((SampleCollector.new 2 true).collectList
        [((0, 0), [3, 1]), ((1, 0), [3, 2]), ((1, 1), [3, 3])]).samples.length = 2) :=
  ⟨⟨by decide, by decide⟩,
   sample_collector_reservoir_sizes 2 true
     [((0, 0), [3, 1]), ((1, 0), [3, 2]), ((1, 1), [3, 3])] (by decide) (by decide)⟩

/-! ### Claim C5 -/

theorem collect_null_eq {s : SampleCollector} {r1 r2 : Nat} {data : Bytes}
    (hnull : data.headI = NIL_FLAG) :
    s.collect r1 r2 data = { s with null_count := s.null_count + 1 } := by
  rw [SampleCollector.collect, if_pos hnull]

theorem collectColsAux_null_at :
    ∀ (i : Nat) (cvs cks : List Bytes) (bs : List Bool)
      (ncs : List Int) (fms : List (List Bytes)) (tss : List Int) (cv : Bytes),
    cvs[i]? = some cv → cv.headI = NIL_FLAG →
    i < cks.length → i < bs.length → i < ncs.length → i < fms.length → i < tss.length →
    (collectColsAux cvs cks bs ncs fms tss).1[i]? = (ncs[i]?).map (· + 1) ∧
    (collectColsAux cvs cks bs ncs fms tss).2.1[i]? = fms[i]? ∧
    (collectColsAux cvs cks bs ncs fms tss).2.2[i]? = tss[i]? := by
  intro i
  induction i with
  | zero =>
    intro cvs cks bs ncs fms tss cv hcv hnull hk hb hn hf ht
    match cvs, cks, bs, ncs, fms, tss with
    | [], _, _, _, _, _ => simp at hcv
    | _ :: _, [], _, _, _, _ => simp at hk
    | _ :: _, _ :: _, [], _, _, _ => simp at hb
    | _ :: _, _ :: _, _ :: _, [], _, _ => simp at hn
    | _ :: _, _ :: _, _ :: _, _ :: _, [], _ => simp at hf
    | _ :: _, _ :: _, _ :: _, _ :: _, _ :: _, [] => simp at ht
    | cv0 :: cvs, ck0 :: cks, b0 :: bs, nc0 :: ncs, fm0 :: fms, ts0 :: tss =>
      have hcv0 : cv0 = cv := by simpa using hcv
      rw [collectColsAux, if_pos (hcv0 ▸ hnull)]
      simp
  | succ j ih =>
    intro cvs cks bs ncs fms tss cv hcv hnull hk hb hn hf ht
    match cvs, cks, bs, ncs, fms, tss with
    | [], _, _, _, _, _ => simp at hcv
    | _ :: _, [], _, _, _, _ => simp at hk
    | _ :: _, _ :: _, [], _, _, _ => simp at hb
    | _ :: _, _ :: _, _ :: _, [], _, _ => simp at hn
    | _ :: _, _ :: _, _ :: _, _ :: _, [], _ => simp at hf
    | _ :: _, _ :: _, _ :: _, _ :: _, _ :: _, [] => simp at ht
    | cv0 :: cvs, ck0 :: cks, b0 :: bs, nc0 :: ncs, fm0 :: fms, ts0 :: tss =>
      simp only [List.getElem?_cons_succ] at hcv ⊢
      simp only [List.length_cons, Nat.succ_lt_succ_iff] at hk hb hn hf ht
      have := ih cvs cks bs ncs fms tss cv hcv hnull hk hb hn hf ht
      rw [collectColsAux]
      split
      · simpa using this
      · simpa using this

/-- Claim C5: a value whose first encoded byte is the NULL sentinel bumps
the null counter by exactly one and leaves everything else untouched — in
`SampleCollector::collect` the sample list, the row count, the `FmSketch`
and `CmSketch` traces, and the total-size accumulator are unchanged; in
`BaseRowSampleCollector::collect_column` the null column's `FmSketch`
trace and total size are unchanged while its null count gains one. -/
theorem null_value_frame
    (s : SampleCollector) (r1 r2 : Nat) (data : Bytes)
    (b : BaseRowSampleCollector) (cols keys : List Bytes) (strs : List Bool)
    (i : Nat) (cv : Bytes)
    (_hne : data ≠ []) (hnull : data.headI = NIL_FLAG)
    (hcv : cols[i]? = some cv) (_hcvne : cv ≠ []) (hcvnull : cv.headI = NIL_FLAG)
    (hk : i < keys.length) (hs : i < strs.length)
    (hn : i < b.null_count.length) (hf : i < b.fm_sketches.length)
    (ht : i < b.total_sizes.length) :
    ((s.collect r1 r2 data).null_count = s.null_count + 1 ∧
     (s.collect r1 r2 data).samples = s.samples ∧
     (s.collect r1 r2 data).count = s.count ∧
     (s.collect r1 r2 data).fmInserts = s.fmInserts ∧
     (s.collect r1 r2 data).cmInserts = s.cmInserts ∧
     (s.collect r1 r2 data).total_size = s.total_size) ∧
    ((b.collect_column cols keys strs).null_count[i]? = (b.null_count[i]?).map (· + 1) ∧
     (b.collect_column cols keys strs).fm_sketches[i]? = b.fm_sketches[i]? ∧
     (b.collect_column cols keys strs).total_sizes[i]? = b.total_sizes[i]?) := by
  constructor
  · rw [collect_null_eq hnull]
    exact ⟨rfl, rfl, rfl, rfl, rfl, rfl⟩
  · have := collectColsAux_null_at i cols keys strs
      b.null_count b.fm_sketches b.total_sizes cv hcv hcvnull hk hs hn hf ht
    exact this

/-- Witness for C5: a one-column row whose value is the encoded NULL
(`[NIL_FLAG]`), against concrete collectors. -/
theorem null_value_frame_witness :
    (([0] : Bytes) ≠ [] ∧ ([0] : Bytes).headI = NIL_FLAG ∧
     ([[0]] : List Bytes)[0]? = some [0] ∧
     0 < ([[9]] : List Bytes).length ∧ 0 < ([false] : List Bool).length ∧
     0 < (⟨[5], [[[9]]], [7]⟩ : BaseRowSampleCollector).null_count.length) ∧
    ((((SampleCollector.new 2 true).collect 0 0 [0]).null_count =
        (SampleCollector.new 2 true).null_count + 1 ∧
      ((SampleCollector.new 2 true).collect 0 0 [0]).samples =
        (SampleCollector.new 2 true).samples ∧
      ((SampleCollector.new 2 true).collect 0 0 [0]).count =
        (SampleCollector.new 2 true).count ∧
      ((SampleCollector.new 2 true).collect 0 0 [0]).fmInserts =
        (SampleCollector.new 2 true).fmInserts ∧
      ((SampleCollector.new 2 true).collect 0 0 [0]).cmInserts =
        (SampleCollector.new 2 true).cmInserts ∧
      ((SampleCollector.new 2 true).collect 0 0 [0]).total_size =
        (SampleCollector.new 2 true).total_size) ∧
     (((⟨[5], [[[9]]], [7]⟩ : BaseRowSampleCollector).collect_column
          [[0]] [[9]] [false]).null_count[0]? =
        ((⟨[5], [[[9]]], [7]⟩ : BaseRowSampleCollector).null_count[0]?).map (· + 1) ∧
      ((⟨[5], [[[9]]], [7]⟩ : BaseRowSampleCollector).collect_column
          [[0]] [[9]] [false]).fm_sketches[0]? =
        (⟨[5], [[[9]]], [7]⟩ : BaseRowSampleCollector).fm_sketches[0]? ∧
      ((⟨[5], [[[9]]], [7]⟩ : BaseRowSampleCollector).collect_column
          [[0]] [[9]] [false]).total_sizes[0]? =
        (⟨[5], [[[9]]], [7]⟩ : BaseRowSampleCollector).total_sizes[0]?)) :=
  ⟨⟨by decide, by decide, by decide, by decide, by decide, by decide⟩,
   null_value_frame (SampleCollector.new 2 true) 0 0 [0]
     ⟨[5], [[[9]]], [7]⟩ [[0]] [[9]] [false] 0 [0]
     (by decide) (by decide) (by decide) (by decide) (by decide)
     (by decide) (by decide) (by decide) (by decide) (by decide)⟩

/-! ### Claim C1 -/

/-- Claim C1 (refuted): `BernoulliRowSampleCollector::pick_sample` includes
the row when the uniform draw is at or above `sample_rate`
(`cur_rng >= self.sample_rate`), not below it: at rate `1/5` the draw
`1/2` is included although `1/2 < 1/5` fails, and the draw `1/10` is
rejected although `1/10 < 1/5` holds.  Inclusion probability is therefore
`1 - sample_rate`, not the configured rate. -/
theorem bernoulli_pick_sample_inverted :
    bernoulliPickSample (1/5 : ℚ) (1/2) = true ∧ ¬((1/2 : ℚ) < 1/5) ∧
    bernoulliPickSample (1/5 : ℚ) (1/10) = false ∧ ((1/10 : ℚ) < 1/5) := by
  refine ⟨?_, by norm_num, ?_, by norm_num⟩
  · simp only [bernoulliPickSample, decide_eq_true_eq, ge_iff_le]
    norm_num
  · simp only [bernoulliPickSample, decide_eq_false_iff_not, ge_iff_le, not_le]
    norm_num

/-! ### Claim C6 -/

/-- Claim C6 (refuted in its Bernoulli half): with `max_sample_size = 0`
the priority reservoir's `pick_sample` does return false and leaves the
collector unchanged, but with `sample_rate = 0` the Bernoulli collector
admits every row (any draw in `[0,1)` satisfies `cur_rng >= 0`), so the
sample set of a one-row stream is non-empty instead of empty. -/
theorem abnormal_sampling_divergence :
    ((ReservoirRowSampleCollector.new 0).pick_sample 12345).1 = false ∧
    ((ReservoirRowSampleCollector.new 0).pick_sample 12345).2 =
      ReservoirRowSampleCollector.new 0 ∧
    (bernoulliScan 0 [((1 : ℚ)/2, [[7]])]).samples = [[[7]]] ∧
    [[[7]]] ≠ ([] : List (List Bytes)) := by
  refine ⟨by decide, by decide, ?_, by decide⟩
  norm_num [bernoulliScan, bernoulliPickSample, BernoulliRowSampleCollector.push_sample]

/-! ### Claim C9 -/

/-- Claim C9 (refuted): the priority reservoir stores `self.cur_rng` with
each pushed sample, but `pick_sample` writes the fresh draw into
`self.cur_rng` only on the eviction branch; an under-capacity admission
keeps the stale value (initially 0).  With capacity 1 and draw 7, the
admitted row is stored and serialized with weight 0, not the drawn
priority 7. -/
theorem reservoir_priority_stale :
    (((ReservoirRowSampleCollector.new 1).pick_sample 7).1 = true) ∧
    ((((ReservoirRowSampleCollector.new 1).pick_sample 7).2).push_sample [[5]]).samples =
      [(0, [[5]])] ∧
    ((((ReservoirRowSampleCollector.new 1).pick_sample 7).2).push_sample
      [[5]]).to_proto_weights = [([[5]], 0)] ∧
    (0 : Nat) ≠ 7 := by
  refine ⟨by decide, by decide, by decide, by decide⟩

/-! ### Claim C7 -/

/-- Claim C7: dispatching an analyze request of the unimplemented kind
(`TypeSampleIndex`) yields a successful call whose response carries the
"not implemented" message in the soft-error payload field, whatever the
builders would have produced; a soft `Error::Other` from any other kind is
likewise embedded in a successful response, while hard errors propagate
and fail the call. -/
theorem handle_request_error_shaping :
    (∀ inner : Except CopError (List Nat),
      handle_request AnalyzeType.typeSampleIndex inner =
        Except.ok ⟨[], some notImplementedMsg⟩) ∧
    (∀ msg : String,
      handle_request AnalyzeType.typeColumn (Except.error (CopError.other msg)) =
        Except.ok ⟨[], some msg⟩) ∧
    (∀ code : Nat,
      handle_request AnalyzeType.typeIndex (Except.error (CopError.hard code)) =
        Except.error (CopError.hard code) ∧
      handle_request AnalyzeType.typeCommonHandle (Except.error (CopError.hard code)) =
        Except.error (CopError.hard code) ∧
      handle_request AnalyzeType.typeColumn (Except.error (CopError.hard code)) =
        Except.error (CopError.hard code) ∧
      handle_request AnalyzeType.typeMixed (Except.error (CopError.hard code)) =
        Except.error (CopError.hard code) ∧
      handle_request AnalyzeType.typeFullSampling (Except.error (CopError.hard code)) =
        Except.error (CopError.hard code)) ∧
    (∀ data : List Nat,
      handle_request AnalyzeType.typeIndex (Except.ok data) = Except.ok ⟨data, none⟩) := by
  refine ⟨?_, fun _ => rfl, fun _ => ⟨rfl, rfl, rfl, rfl, rfl⟩, fun _ => rfl⟩
  intro inner
  rfl

/-! ### Claim C8 -/

/-- The process-wide counter (sum of pushed deltas) tracks exactly the
usage last reported. -/
def memTraceInv (s : MemState) : Prop :=
  s.traceEvents.sum = (s.reported_memory_usage : Int)

theorem memTraceInv_report (s : MemState) (f : Bool) (h : memTraceInv s) :
    memTraceInv (report_memory_usage s f) := by
  rw [report_memory_usage]
  split
  · simp only [memTraceInv, List.sum_append, List.sum_cons, List.sum_nil] at h ⊢
    omega
  · exact h

theorem memTraceInv_applyOps : ∀ (ops : List MemOp) (s : MemState),
    memTraceInv s → memTraceInv (applyMemOps s ops) := by
  intro ops
  induction ops with
  | nil => intro s h; exact h
  | cons op rest ih =>
    intro s h
    refine ih (applyMemOp s op) ?_
    cases op with
    | addUsage n => exact h
    | subUsage n => exact h
    | report f => exact memTraceInv_report s f h

theorem report_no_push (s : MemState)
    (hsmall : ((s.memory_usage : Int) - (s.reported_memory_usage : Int)).natAbs ≤
      1024 * 1024) :
    report_memory_usage s false = s := by
  rw [report_memory_usage, if_neg]
  simp only [Bool.false_eq_true, false_or, not_lt]
  omega

theorem finalizeMemory_zero (s : MemState) (h : memTraceInv s) :
    (finalizeMemory s).traceEvents.sum = 0 ∧
    (finalizeMemory s).reported_memory_usage = 0 ∧
    (finalizeMemory s).memory_usage = 0 := by
  rw [finalizeMemory, report_memory_usage, if_pos (Or.inl rfl)]
  simp only [memTraceInv] at h
  refine ⟨?_, rfl, rfl⟩
  simp only [List.sum_append, List.sum_cons, List.sum_nil]
  omega

/-- Claim C8: over any sequence of memory-usage changes and report calls
starting from a fresh collector, a non-finish report with net unreported
change of at most 1 MiB pushes nothing (deltas reach the process-wide
counter only above that threshold or on finish); the counter's cumulative
value always equals the usage last reported; and after the common teardown
of `to_proto` (finalization) and of `Drop` (cancellation) the cumulative
reported usage equals the true usage, namely zero — no positive residual
remains. -/
theorem memory_reporting_invariant
    (ops : List MemOp) (f : Bool) (hf : f = false)
    (hsmall : (((applyMemOps memInit ops).memory_usage : Int) -
        ((applyMemOps memInit ops).reported_memory_usage : Int)).natAbs ≤ 1024 * 1024) :
    report_memory_usage (applyMemOps memInit ops) f = applyMemOps memInit ops ∧
    (applyMemOps memInit ops).traceEvents.sum =
      ((applyMemOps memInit ops).reported_memory_usage : Int) ∧
    (finalizeMemory (applyMemOps memInit ops)).traceEvents.sum = 0 ∧
    (finalizeMemory (applyMemOps memInit ops)).reported_memory_usage = 0 ∧
    (finalizeMemory (applyMemOps memInit ops)).memory_usage = 0 := by
  subst hf
  have hinv : memTraceInv (applyMemOps memInit ops) :=
    memTraceInv_applyOps ops memInit (by simp [memTraceInv, memInit])
  have hz := finalizeMemory_zero (applyMemOps memInit ops) hinv
  exact ⟨report_no_push _ hsmall, hinv, hz.1, hz.2.1, hz.2.2⟩

/-- Witness for C8: grow usage by 5 bytes, then a non-finish report (which
pushes nothing at a 5-byte delta) and the finalization facts. -/
theorem memory_reporting_invariant_witness :
    ((false : Bool) = false ∧
     (((applyMemOps memInit [MemOp.addUsage 5]).memory_usage : Int) -
        ((applyMemOps memInit [MemOp.addUsage 5]).reported_memory_usage : Int)).natAbs ≤
       1024 * 1024) ∧
    (report_memory_usage (applyMemOps memInit [MemOp.addUsage 5]) false =
      applyMemOps memInit [MemOp.addUsage 5] ∧
     (applyMemOps memInit [MemOp.addUsage 5]).traceEvents.sum =
      ((applyMemOps memInit [MemOp.addUsage 5]).reported_memory_usage : Int) ∧
     (finalizeMemory (applyMemOps memInit [MemOp.addUsage 5])).traceEvents.sum = 0 ∧
     (finalizeMemory (applyMemOps memInit [MemOp.addUsage 5])).reported_memory_usage = 0 ∧
     (finalizeMemory (applyMemOps memInit [MemOp.addUsage 5])).memory_usage = 0) :=
  ⟨⟨rfl, by norm_num [applyMemOps, applyMemOp, memInit]⟩,
   memory_reporting_invariant [MemOp.addUsage 5] false rfl
     (by norm_num [applyMemOps, applyMemOp, memInit])⟩

end Analyze
